import Mathlib

/-!
Shallow embedding of the mood-tracker application (`script.js`) and proofs
about its filtering, sorting, statistics, import, and tag-buffer logic.

Conventions of the embedding:
* JS strings are Lean `String`s; `String.prototype.toLowerCase` and
  `String.prototype.trim` are modelled character-wise on `String.data`
  (ASCII case folding, the four common whitespace characters).
* Timestamps are epoch milliseconds as `Int`; `Date.prototype.setHours(0,0,0,0)`
  (midnight truncation in a fixed time zone without DST transitions) is
  modelled as flooring to a calendar-day index by `Int` division.
* `Array.prototype.sort` with a numeric comparator is modelled as a stable
  sort (`List.insertionSort`) with the ordering the comparator induces.
* Dynamically absent object fields (entries that arrive through `importData`
  / `loadData` without a `note`, `mood` or `tags` field) are modelled with
  `Option`; an operation that would throw a `TypeError` returns `Except.error`.
-/

namespace MoodTracker

/-- JS `String.prototype.toLowerCase`, character-wise ASCII case folding
(`Char.toLower` lowers exactly the ASCII range, as JS does there). -/
def jsToLowerCase (s : String) : String := ⟨s.data.map Char.toLower⟩

/-- Character-list core of `String.prototype.trim`: drop leading whitespace,
then drop trailing whitespace (via reversal). -/
def trimChars (l : List Char) : List Char :=
  ((l.dropWhile Char.isWhitespace).reverse.dropWhile Char.isWhitespace).reverse

/-- JS `String.prototype.trim`. -/
def jsTrim (s : String) : String := ⟨trimChars s.data⟩

/-- JS `String.prototype.includes`: substring (contiguous) containment. -/
def jsIncludes (s sub : String) : Bool := decide (sub.data <:+: s.data)

/-- A well-formed mood entry, the shape produced by `logMood`:
`{id, mood, note, tags, timestamp}` with `timestamp` in epoch ms. -/
structure Entry where
  id : Int
  mood : String
  note : String
  tags : List String
  timestamp : Int
deriving DecidableEq

/-- The five mood values, in the fixed order used by `updateMoodDistribution`
(`moodNames` values) and by the `moodRank` table. -/
def moodNames : List String := ["Amazing", "Good", "Neutral", "Stressed", "Terrible"]

/-! ### Import (`importData`) -/

/-- Result of `JSON.parse` on the uploaded file, as far as `importData`
distinguishes it: a parse exception, a non-array JSON value, or an array of
entries. -/
inductive ImportPayload where
  | invalidJson
  | nonArray
  | arr (imported : List Entry)

/-- Outcome of `importData`: the store `moodEntries` afterwards, and whether
the success toast (`true`) or the error modal (`false`) was shown. -/
structure ImportOutcome where
  store : List Entry
  success : Bool
deriving DecidableEq

/-- The `entry.timestamp = new Date(entry.timestamp)` coercion applied to each
imported entry; re-reading an epoch-ms value as a `Date` keeps its instant, so
on the `Int` timestamp model it is the identity. -/
def coerceTimestamp (e : Entry) : Entry := { e with timestamp := e.timestamp }

/-- `importData` after the file read: on a parse exception or a non-array
payload show the error modal and leave `moodEntries` alone; on an array,
coerce timestamps and set `moodEntries = imported.concat(moodEntries)`. -/
def importData (store : List Entry) (payload : ImportPayload) : ImportOutcome :=
  match payload with
  | .invalidJson => ⟨store, false⟩
  | .nonArray => ⟨store, false⟩
  | .arr imported => ⟨(imported.map coerceTimestamp) ++ store, true⟩

/-! ### Filtering (`renderHistory`) -/

/-- The search predicate of `renderHistory` on a well-formed entry:
case-folded note contains the term, or case-folded mood contains the term, or
some tag contains the term (tags are compared without case folding; on a
well-formed entry `entry.tags` is an array, which is truthy in JS even when
empty). -/
def matchesSearch (searchTerm : String) (e : Entry) : Bool :=
  jsIncludes (jsToLowerCase e.note) searchTerm ||
  jsIncludes (jsToLowerCase e.mood) searchTerm ||
  e.tags.any (fun tag => jsIncludes tag searchTerm)

/-- The filter pipeline of `renderHistory`: mood filter (sentinel `"All"`
keeps everything), then — only when the search box is non-empty after
trimming — the search filter with the trimmed, case-folded term. -/
def filterEntries (entries : List Entry) (moodFilter searchInput : String) :
    List Entry :=
  let filtered := if moodFilter = "All" then entries
    else entries.filter (fun e => e.mood == moodFilter)
  if jsTrim searchInput ≠ "" then
    filtered.filter (matchesSearch (jsToLowerCase (jsTrim searchInput)))
  else filtered

/-! ### Sorting (`sortEntries`) -/

/-- Ordering induced by the comparator `(a, b) => b.timestamp - a.timestamp`:
`a` may precede `b` iff `b.timestamp ≤ a.timestamp` (newest first). -/
def tsDesc (a b : Entry) : Prop := b.timestamp ≤ a.timestamp

/-- Ordering induced by the comparator `(a, b) => a.timestamp - b.timestamp`
(oldest first). -/
def tsAsc (a b : Entry) : Prop := a.timestamp ≤ b.timestamp

/-- Strict version of the timestamp order, used to state uniqueness of sorted
arrangements when no two timestamps are equal. -/
def tsLt (a b : Entry) : Prop := a.timestamp < b.timestamp

instance : DecidableRel tsDesc :=
  fun a b => inferInstanceAs (Decidable (b.timestamp ≤ a.timestamp))

instance : DecidableRel tsAsc :=
  fun a b => inferInstanceAs (Decidable (a.timestamp ≤ b.timestamp))

instance : IsTotal Entry tsDesc :=
  ⟨fun a b => Int.le_total b.timestamp a.timestamp⟩

instance : IsTotal Entry tsAsc :=
  ⟨fun a b => Int.le_total a.timestamp b.timestamp⟩

instance : IsTrans Entry tsDesc :=
  ⟨fun _ _ _ h₁ h₂ => le_trans h₂ h₁⟩

instance : IsTrans Entry tsAsc :=
  ⟨fun _ _ _ h₁ h₂ => le_trans h₁ h₂⟩

instance : IsTrans Entry tsLt :=
  ⟨fun _ _ _ h₁ h₂ => lt_trans h₁ h₂⟩

instance : IsAntisymm Entry tsLt :=
  ⟨fun _ _ h₁ h₂ => absurd h₂ (lt_asymm h₁)⟩

/-- The `moodRank` table of `sortEntries`. -/
def moodRank : List (String × Int) :=
  [("Amazing", 5), ("Good", 4), ("Neutral", 3), ("Stressed", 2), ("Terrible", 1)]

/-- `moodRank[entry.mood]`: `none` models the JS `undefined` lookup for a mood
outside the table. -/
def rankOf (m : String) : Option Int :=
  (moodRank.find? (fun p => p.1 == m)).map (·.2)

/-- Ordering induced by `(a, b) => moodRank[b.mood] - moodRank[a.mood]`.
A lookup miss makes the JS comparator return `NaN`, which the sort treats as
"no preference"; that is modelled as `true` (keep relative order). -/
def moodBestB (a b : Entry) : Bool :=
  match rankOf a.mood, rankOf b.mood with
  | some ra, some rb => rb ≤ ra
  | _, _ => true

/-- Ordering induced by `(a, b) => moodRank[a.mood] - moodRank[b.mood]`. -/
def moodWorstB (a b : Entry) : Bool :=
  match rankOf a.mood, rankOf b.mood with
  | some ra, some rb => ra ≤ rb
  | _, _ => true

/-- `sortEntries`: copy the array (`slice()`, so the input is not mutated) and
sort it by the comparator selected by `currentSort`; an unrecognized mode
returns the copy unchanged. -/
def sortEntries (currentSort : String) (entries : List Entry) : List Entry :=
  match currentSort with
  | "newest" => List.insertionSort tsDesc entries
  | "oldest" => List.insertionSort tsAsc entries
  | "mood-best" => List.insertionSort (fun a b => moodBestB a b = true) entries
  | "mood-worst" => List.insertionSort (fun a b => moodWorstB a b = true) entries
  | _ => entries

/-! ### Sample data used by witnesses -/

/-- Sample entry (timestamp 2024-01-01T00:00:00Z in epoch ms). -/
def sampleGood : Entry := ⟨1, "Good", "x", [], 1704067200000⟩

/-- Sample entry one hour later. -/
def sampleNeutral : Entry := ⟨2, "Neutral", "walk", ["park"], 1704070800000⟩

/-! ### Theorems for the import claims -/

/-- C4: for every store state and every import payload that is not valid JSON
or not a JSON array, the import operation reports the failure and leaves the
entry store unmodified. -/
theorem importData_error_preserves_store (store : List Entry)
    (payload : ImportPayload)
    (h : payload = ImportPayload.invalidJson ∨ payload = ImportPayload.nonArray) :
    importData store payload = ⟨store, false⟩ := by
  rcases h with h | h <;> subst h <;> rfl

/-- Witness for C4 at a concrete store and the non-array payload. -/
theorem importData_error_preserves_store_witness :
    (ImportPayload.nonArray = ImportPayload.invalidJson ∨
      ImportPayload.nonArray = ImportPayload.nonArray) ∧
    importData [sampleGood] ImportPayload.nonArray = ⟨[sampleGood], false⟩ :=
  ⟨Or.inr rfl, importData_error_preserves_store [sampleGood] _ (Or.inr rfl)⟩

/-- C5: a well-formed imported array is prepended in full ahead of the
existing entries, preserving its relative order; in particular importing a
one-entry array into the empty store yields that entry alone. -/
theorem importData_array_prepends (store imported : List Entry) :
    importData store (ImportPayload.arr imported) = ⟨imported ++ store, true⟩ ∧
    importData [] (ImportPayload.arr [sampleGood]) = ⟨[sampleGood], true⟩ := by
  constructor
  · show ImportOutcome.mk ((imported.map coerceTimestamp) ++ store) true = _
    have : imported.map coerceTimestamp = imported := List.map_id imported
    rw [this]
  · rfl

/-! ### Theorems for the filter claims -/

/-- C6: with the mood sentinel `"All"` and a search term that is empty after
trimming, the filter stage is the identity. -/
theorem filterEntries_all_empty_identity (entries : List Entry)
    (searchInput : String) (h : jsTrim searchInput = "") :
    filterEntries entries "All" searchInput = entries := by
  simp [filterEntries, h]

/-- Witness for C6 at a concrete entry list and the empty search box. -/
theorem filterEntries_all_empty_identity_witness :
    jsTrim "" = "" ∧
    filterEntries [sampleGood, sampleNeutral] "All" "" = [sampleGood, sampleNeutral] :=
  ⟨rfl, filterEntries_all_empty_identity [sampleGood, sampleNeutral] "" rfl⟩

/-- C7: filtering by a mood value other than `"All"` with an empty search term
keeps exactly the entries with that mood: every survivor has mood `M` and the
result length is the number of such entries in the input. -/
theorem filterEntries_mood_sound_complete (entries : List Entry) (M : String)
    (hM : M ≠ "All") :
    (∀ e ∈ filterEntries entries M "", e.mood = M) ∧
    (filterEntries entries M "").length =
      entries.countP (fun e => e.mood == M) := by
  have hfe : filterEntries entries M "" = entries.filter (fun e => e.mood == M) := by
    simp [filterEntries, hM, jsTrim, trimChars]
  constructor
  · intro e he
    rw [hfe] at he
    have := List.of_mem_filter he
    simpa using this
  · rw [hfe, List.countP_eq_length_filter]

/-- Witness for C7 at mood `"Good"` over a two-entry list. -/
theorem filterEntries_mood_sound_complete_witness :
    ("Good" : String) ≠ "All" ∧
    ((∀ e ∈ filterEntries [sampleGood, sampleNeutral] "Good" "", e.mood = "Good") ∧
      (filterEntries [sampleGood, sampleNeutral] "Good" "").length =
        List.countP (fun e => e.mood == "Good") [sampleGood, sampleNeutral]) :=
  ⟨by decide, filterEntries_mood_sound_complete [sampleGood, sampleNeutral] "Good"
    (by decide)⟩

/-! ### Theorems for the sorting claim -/

/-- C8: when no two entries share a timestamp, re-sorting the newest-first
order with mode `"oldest"` yields exactly the reverse of the newest-first
order. -/
theorem sortEntries_oldest_reverses_newest (entries : List Entry)
    (h : entries.Pairwise (fun a b => a.timestamp ≠ b.timestamp)) :
    sortEntries "oldest" (sortEntries "newest" entries) =
      (sortEntries "newest" entries).reverse := by
  show List.insertionSort tsAsc (List.insertionSort tsDesc entries) =
    (List.insertionSort tsDesc entries).reverse
  set L := List.insertionSort tsDesc entries with hLdef
  have hsorted : List.Sorted tsDesc L := List.sorted_insertionSort tsDesc entries
  have hperm : L.Perm entries := List.perm_insertionSort tsDesc entries
  have hneL : L.Pairwise (fun a b => a.timestamp ≠ b.timestamp) :=
    (hperm.pairwise_iff (fun hxy => Ne.symm hxy)).mpr h
  have hstrictL : L.Pairwise (fun a b => tsLt b a) :=
    (hsorted.and hneL).imp (fun hab => lt_of_le_of_ne hab.1 (Ne.symm hab.2))
  have hrev : (L.reverse).Pairwise tsLt := List.pairwise_reverse.mpr hstrictL
  set R := List.insertionSort tsAsc L with hRdef
  have hsortedR : List.Sorted tsAsc R := List.sorted_insertionSort tsAsc L
  have hpermR : R.Perm L := List.perm_insertionSort tsAsc L
  have hneR : R.Pairwise (fun a b => a.timestamp ≠ b.timestamp) :=
    (hpermR.pairwise_iff (fun hxy => Ne.symm hxy)).mpr hneL
  have hstrictR : R.Pairwise tsLt :=
    (hsortedR.and hneR).imp (fun hab => lt_of_le_of_ne hab.1 hab.2)
  exact List.eq_of_perm_of_sorted (hpermR.trans (L.reverse_perm).symm) hstrictR hrev

/-- Witness for C8 on a two-entry list with distinct timestamps. -/
theorem sortEntries_oldest_reverses_newest_witness :
    ([sampleNeutral, sampleGood].Pairwise (fun a b => a.timestamp ≠ b.timestamp)) ∧
    sortEntries "oldest" (sortEntries "newest" [sampleNeutral, sampleGood]) =
      (sortEntries "newest" [sampleNeutral, sampleGood]).reverse :=
  ⟨by decide, sortEntries_oldest_reverses_newest [sampleNeutral, sampleGood] (by decide)⟩

/-! ### Distribution (`updateMoodDistribution`) -/

/-- The divisor `moodEntries.length || 1` of `updateMoodDistribution`: the
entry count, with `0` replaced by `1`. -/
def jsTotal (entries : List Entry) : Nat :=
  if entries.length = 0 then 1 else entries.length

/-- The per-mood count `moodEntries.filter(entry => entry.mood === name).length`. -/
def moodCount (entries : List Entry) (moodName : String) : Nat :=
  (entries.filter (fun e => e.mood == moodName)).length

/-- The per-mood percentage `(count / total) * 100` of `updateMoodDistribution`,
in exact rational arithmetic. -/
def distPercent (entries : List Entry) (moodName : String) : ℚ :=
  (moodCount entries moodName : ℚ) / (jsTotal entries : ℚ) * 100

theorem moodCount_cons (e : Entry) (es : List Entry) (m : String) :
    moodCount (e :: es) m = moodCount es m + (if e.mood = m then 1 else 0) := by
  simp only [moodCount, ← List.countP_eq_length_filter, List.countP_cons]
  by_cases h : e.mood = m <;> simp [h]

theorem sum_map_indicator (x : String) (names : List String) (hnd : names.Nodup)
    (hx : x ∈ names) :
    (names.map (fun m => if x = m then (1 : ℕ) else 0)).sum = 1 := by
  induction names with
  | nil => cases hx
  | cons a as ih =>
    rcases List.mem_cons.mp hx with rfl | hx2
    · have hxnot : x ∉ as := (List.nodup_cons.mp hnd).1
      have hzero : (as.map (fun m => if x = m then (1 : ℕ) else 0)).sum = 0 := by
        apply List.sum_eq_zero
        intro y hy
        rcases List.mem_map.mp hy with ⟨m, hm, hym⟩
        have : x ≠ m := fun hxm => hxnot (hxm ▸ hm)
        simpa [this] using hym.symm
      simp [hzero]
    · have hxa : x ≠ a := by
        intro hxa
        exact (List.nodup_cons.mp hnd).1 (hxa ▸ hx2)
      simp only [List.map_cons, List.sum_cons, if_neg hxa]
      rw [ih (List.nodup_cons.mp hnd).2 hx2]

theorem sum_map_add_nat (f g : String → ℕ) (l : List String) :
    (l.map (fun m => f m + g m)).sum = (l.map f).sum + (l.map g).sum := by
  induction l with
  | nil => rfl
  | cons a as ih => simp [List.map_cons, List.sum_cons, ih]; omega

theorem moodCount_total (entries : List Entry)
    (hmoods : ∀ e ∈ entries, e.mood ∈ moodNames) :
    (moodNames.map (moodCount entries)).sum = entries.length := by
  induction entries with
  | nil => decide
  | cons e es ih =>
    have he : e.mood ∈ moodNames := hmoods e (List.mem_cons_self e es)
    have hes : ∀ x ∈ es, x.mood ∈ moodNames :=
      fun x hx => hmoods x (List.mem_cons_of_mem e hx)
    have hmap : moodNames.map (moodCount (e :: es)) =
        moodNames.map (fun m => moodCount es m + (if e.mood = m then 1 else 0)) :=
      List.map_congr_left (fun m _ => moodCount_cons e es m)
    rw [hmap, sum_map_add_nat, ih hes,
      sum_map_indicator e.mood moodNames (by decide) he]
    simp

theorem sum_map_percent (f : String → ℕ) (l : List String) (T : ℚ) :
    (l.map (fun m => (f m : ℚ) / T * 100)).sum = ((l.map f).sum : ℚ) / T * 100 := by
  induction l with
  | nil => simp
  | cons a as ih =>
    simp only [List.map_cons, List.sum_cons, ih]
    push_cast
    ring

/-- C3: each mood gets `(count / total) * 100` percent; for a non-empty list
(whose moods are the five enumerated values, the data-model invariant) the
five percentages sum to exactly 100, and for the empty list the divisor is
taken as 1 so every mood gets 0 and no division by zero occurs. -/
theorem distribution_sums_to_100 (entries : List Entry)
    (hmoods : ∀ e ∈ entries, e.mood ∈ moodNames) :
    (entries ≠ [] → (moodNames.map (distPercent entries)).sum = 100) ∧
    (entries = [] → ∀ m ∈ moodNames, distPercent entries m = 0) := by
  constructor
  · intro hne
    have hlen : entries.length ≠ 0 := fun h0 => hne (List.length_eq_zero.mp h0)
    have hT : jsTotal entries = entries.length := by simp [jsTotal, hlen]
    have hdp : moodNames.map (distPercent entries) =
        moodNames.map (fun m => (moodCount entries m : ℚ) / (entries.length : ℚ) * 100) := by
      apply List.map_congr_left
      intro m _
      rw [distPercent, hT]
    rw [hdp, sum_map_percent, moodCount_total entries hmoods]
    have hQ : (entries.length : ℚ) ≠ 0 := Nat.cast_ne_zero.mpr hlen
    rw [div_self hQ]
    norm_num
  · intro hempty
    subst hempty
    intro m _
    simp [distPercent, moodCount, jsTotal]

/-- Witness for C3 at a one-entry list and at the empty list. -/
theorem distribution_sums_to_100_witness :
    (∀ e ∈ [sampleGood], e.mood ∈ moodNames) ∧
    ((moodNames.map (distPercent [sampleGood])).sum = 100) ∧
    (∀ m ∈ moodNames, distPercent ([] : List Entry) m = 0) :=
  ⟨by decide,
    (distribution_sums_to_100 [sampleGood] (by decide)).1 (by decide),
    (distribution_sums_to_100 [] (by decide)).2 rfl⟩

/-! ### Streak (`updateStats`) -/

/-- Milliseconds per calendar day. -/
def msPerDay : Int := 86400000

/-- Day truncation: `new Date(ts)` followed by `setHours(0,0,0,0)` identifies
an instant with its calendar day; comparing and stepping those midnights is
comparing and stepping day indices, so the embedding uses the floor of the
epoch-ms value divided by `msPerDay` (`Int./` is Euclidean division, which is
flooring for a positive divisor). -/
def dayIndex (ts : Int) : Int := ts / msPerDay

/-- The streak loop of `updateStats`, walking the newest-first day indices:
a day equal to the check date counts and moves the check date one day back;
a strictly older day breaks; a newer day (same-day duplicate already counted)
is skipped. -/
def streakLoop : List Int → Int → Nat
  | [], _ => 0
  | d :: rest, check =>
    if d = check then streakLoop rest (check - 1) + 1
    else if d < check then 0
    else streakLoop rest check

/-- The streak computation of `updateStats`: entries are sorted newest-first
(`(a, b) => b.timestamp - a.timestamp`), then the loop starts at today's
(midnight-truncated) date. -/
def computeStreak (entries : List Entry) (today : Int) : Nat :=
  streakLoop ((List.insertionSort tsDesc entries).map (fun e => dayIndex e.timestamp))
    (dayIndex today)

/-- Streak scenario fixture: noon on the day with index 19723
(2024-01-01, taking the local zone as UTC). -/
def scenarioToday : Int := 1704067200000 + 43200000

/-- Entries on today, yesterday, and three days ago (gap two days ago). -/
def streakScenarioA : List Entry :=
  [⟨1, "Good", "", [], 1704067200000 + 3600000⟩,
   ⟨2, "Neutral", "", [], 1704067200000 - 86400000 + 7200000⟩,
   ⟨3, "Amazing", "", [], 1704067200000 - 3 * 86400000 + 1800000⟩]

/-- A single entry yesterday, none today. -/
def streakScenarioB : List Entry :=
  [⟨4, "Good", "", [], 1704067200000 - 86400000 + 3600000⟩]

theorem streakLoop_char (D : List Int) (check : Int)
    (hs : D.Pairwise (fun a b => b ≤ a)) :
    (∀ i : ℕ, i < streakLoop D check → (check - (i : ℤ)) ∈ D) ∧
    (check - (streakLoop D check : ℤ)) ∉ D := by
  induction D generalizing check with
  | nil =>
    refine ⟨fun i hi => absurd hi (by simp [streakLoop]), by simp⟩
  | cons d rest ih =>
    obtain ⟨hd, hrest⟩ := List.pairwise_cons.mp hs
    by_cases heq : d = check
    · subst heq
      obtain ⟨ih1, ih2⟩ := ih (d - 1) hrest
      have hl : streakLoop (d :: rest) d = streakLoop rest (d - 1) + 1 := by
        simp [streakLoop]
      refine ⟨?_, ?_⟩
      · intro i hi
        rw [hl] at hi
        cases i with
        | zero =>
          simp only [Nat.cast_zero, sub_zero]
          exact List.mem_cons_self d rest
        | succ j =>
          have hj : j < streakLoop rest (d - 1) := by omega
          have hmem := ih1 j hj
          have harith : d - ((j + 1 : ℕ) : ℤ) = (d - 1) - (j : ℤ) := by
            push_cast
            ring
          rw [harith]
          exact List.mem_cons_of_mem d hmem
      · rw [hl]
        intro hmem
        rcases List.mem_cons.mp hmem with h1 | h2
        · omega
        · have harith : d - ((streakLoop rest (d - 1) + 1 : ℕ) : ℤ)
              = (d - 1) - (streakLoop rest (d - 1) : ℤ) := by
            push_cast
            ring
          rw [harith] at h2
          exact ih2 h2
    · by_cases hlt : d < check
      · have hl : streakLoop (d :: rest) check = 0 := by
          simp [streakLoop, heq, hlt]
        refine ⟨fun i hi => absurd hi (by omega), ?_⟩
        rw [hl]
        simp only [Nat.cast_zero, sub_zero]
        intro hmem
        rcases List.mem_cons.mp hmem with h1 | h2
        · exact heq h1.symm
        · have := hd check h2
          omega
      · have hl : streakLoop (d :: rest) check = streakLoop rest check := by
          simp [streakLoop, heq, hlt]
        obtain ⟨ih1, ih2⟩ := ih check hrest
        refine ⟨?_, ?_⟩
        · intro i hi
          rw [hl] at hi
          exact List.mem_cons_of_mem d (ih1 i hi)
        · rw [hl]
          intro hmem
          rcases List.mem_cons.mp hmem with h1 | h2
          · omega
          · exact ih2 h2

/-- C2: the streak is the count of consecutive calendar days, walking backward
from today, on which at least one entry exists, stopping at the first gap:
every day index `today - i` with `i` below the streak carries an entry, and
day index `today - streak` carries none. In particular the scenario with
entries today, yesterday and three days ago gives 2, and the scenario with an
entry only yesterday gives 0. -/
theorem computeStreak_consecutive_days (entries : List Entry) (today : Int) :
    ((∀ i : ℕ, i < computeStreak entries today →
        ∃ e ∈ entries, dayIndex e.timestamp = dayIndex today - (i : ℤ)) ∧
      ¬ ∃ e ∈ entries,
        dayIndex e.timestamp = dayIndex today - (computeStreak entries today : ℤ)) ∧
    computeStreak streakScenarioA scenarioToday = 2 ∧
    computeStreak streakScenarioB scenarioToday = 0 := by
  refine ⟨?_, by decide, by decide⟩
  have hsorted : List.Sorted tsDesc (List.insertionSort tsDesc entries) :=
    List.sorted_insertionSort tsDesc entries
  have hmono : ((List.insertionSort tsDesc entries).map
      (fun e => dayIndex e.timestamp)).Pairwise (fun a b => b ≤ a) := by
    refine List.Pairwise.map _ ?_ hsorted
    intro a b hab
    exact Int.ediv_le_ediv (by norm_num [msPerDay]) hab
  have hchar := streakLoop_char
    ((List.insertionSort tsDesc entries).map (fun e => dayIndex e.timestamp))
    (dayIndex today) hmono
  have hmem : ∀ x : ℤ,
      x ∈ (List.insertionSort tsDesc entries).map (fun e => dayIndex e.timestamp) ↔
        ∃ e ∈ entries, dayIndex e.timestamp = x := by
    intro x
    rw [List.mem_map]
    constructor
    · rintro ⟨e, heL, hx⟩
      exact ⟨e, (List.mem_insertionSort tsDesc).mp heL, hx⟩
    · rintro ⟨e, he, hx⟩
      exact ⟨e, (List.mem_insertionSort tsDesc).mpr he, hx⟩
  constructor
  · intro i hi
    exact (hmem _).mp (hchar.1 i hi)
  · rintro ⟨e, he, hx⟩
    exact hchar.2 ((hmem _).mpr ⟨e, he, hx⟩)

/-- Witness for C2: the theorem instantiated at scenario A discharges the
bound `i < streak` at `i = 1`, exhibiting an entry dated yesterday. -/
theorem computeStreak_consecutive_days_witness :
    1 < computeStreak streakScenarioA scenarioToday ∧
    ∃ e ∈ streakScenarioA,
      dayIndex e.timestamp = dayIndex scenarioToday - (1 : ℤ) := by
  refine ⟨by decide, ?_⟩
  have h := (computeStreak_consecutive_days streakScenarioA scenarioToday).1.1
    1 (by decide)
  exact_mod_cast h

/-! ### Most common mood (`updateStats`) -/

/-- One step of `moodCounts[entry.mood] = (moodCounts[entry.mood] || 0) + 1`.
JS object keys iterate in insertion order, so the counts object is an
association list whose keys appear in order of first occurrence. -/
def bump (counts : List (String × Nat)) (m : String) : List (String × Nat) :=
  if counts.any (fun p => p.1 == m) then
    counts.map (fun p => if p.1 == m then (p.1, p.2 + 1) else p)
  else counts ++ [(m, 1)]

/-- The `moodCounts` object after the `forEach` over `moodEntries`. -/
def moodCounts (entries : List Entry) : List (String × Nat) :=
  entries.foldl (fun acc e => bump acc e.mood) []

/-- Property lookup `moodCounts[k]`; `none` models `undefined`. -/
def countOf (counts : List (String × Nat)) (k : String) : Option Nat :=
  ((counts.find? (fun p => p.1 == k)).map (fun p => p.2))

/-- The JS comparison `moodCounts[a] > moodCounts[b]`: a comparison that
involves `undefined` is `false`. -/
def jsGt : Option Nat → Option Nat → Bool
  | some a, some b => decide (b < a)
  | _, _ => false

/-- The reduce
`Object.keys(moodCounts).reduce((a, b) => moodCounts[a] > moodCounts[b] ? a : b, '-')`. -/
def mostCommonMood (entries : List Entry) : String :=
  ((moodCounts entries).map Prod.fst).foldl
    (fun a b =>
      if jsGt (countOf (moodCounts entries) a) (countOf (moodCounts entries) b)
      then a else b) "-"

/-- The most-common-mood statistic as `updateStats` reports it: the `'-'`
sentinel for an empty store (early return), otherwise the reduce result. -/
def mostCommonDisplay (entries : List Entry) : String :=
  if entries.length = 0 then "-" else mostCommonMood entries

/-- Tie fixture: one Amazing entry stored first. -/
def tieAmazing : Entry := ⟨10, "Amazing", "", [], 100⟩

/-- Tie fixture: one Good entry stored second. -/
def tieGood : Entry := ⟨11, "Good", "", [], 50⟩

theorem jsGt_none (y : Option Nat) : jsGt none y = false := by
  cases y <;> rfl

theorem countOf_eq_none_iff (counts : List (String × Nat)) (k : String) :
    countOf counts k = none ↔ k ∉ counts.map Prod.fst := by
  rw [countOf, Option.map_eq_none', List.find?_eq_none]
  constructor
  · intro h hk
    rcases List.mem_map.mp hk with ⟨p, hp, hpk⟩
    exact (h p hp) (by simpa using hpk)
  · intro hk p hp hpk
    exact hk (List.mem_map.mpr ⟨p, hp, by simpa using hpk⟩)

theorem countOf_mem_some (counts : List (String × Nat)) (k : String)
    (hk : k ∈ counts.map Prod.fst) : ∃ c, countOf counts k = some c := by
  cases hc : countOf counts k with
  | none => exact absurd hk ((countOf_eq_none_iff counts k).mp hc)
  | some c => exact ⟨c, rfl⟩

theorem bump_keys_mem (counts : List (String × Nat)) (m k : String) :
    k ∈ (bump counts m).map Prod.fst ↔ k ∈ counts.map Prod.fst ∨ k = m := by
  by_cases h : counts.any (fun p => p.1 == m)
  · have hkeys : (bump counts m).map Prod.fst = counts.map Prod.fst := by
      simp only [bump, if_pos h, List.map_map]
      apply List.map_congr_left
      intro p _
      by_cases hp : p.1 = m <;> simp [hp]
    rw [hkeys]
    rcases List.any_eq_true.mp h with ⟨p, hp, hpm⟩
    have hm : m ∈ counts.map Prod.fst :=
      List.mem_map.mpr ⟨p, hp, by simpa using hpm⟩
    constructor
    · exact Or.inl
    · rintro (hk | rfl)
      · exact hk
      · exact hm
  · simp only [bump, if_neg h, List.map_append]
    simp [or_comm, eq_comm]

theorem moodCounts_keys_mem (entries : List Entry) (k : String) :
    k ∈ (moodCounts entries).map Prod.fst ↔ ∃ e ∈ entries, e.mood = k := by
  have hgen : ∀ (l : List Entry) (acc : List (String × Nat)),
      k ∈ ((l.foldl (fun acc e => bump acc e.mood) acc).map Prod.fst) ↔
        k ∈ acc.map Prod.fst ∨ ∃ e ∈ l, e.mood = k := by
    intro l
    induction l with
    | nil => simp
    | cons e es ih =>
      intro acc
      rw [List.foldl_cons, ih (bump acc e.mood), bump_keys_mem]
      constructor
      · rintro ((hk | rfl) | ⟨x, hx, hxk⟩)
        · exact Or.inl hk
        · exact Or.inr ⟨e, List.mem_cons_self e es, rfl⟩
        · exact Or.inr ⟨x, List.mem_cons_of_mem e hx, hxk⟩
      · rintro (hk | ⟨x, hx, hxk⟩)
        · exact Or.inl (Or.inl hk)
        · rcases List.mem_cons.mp hx with rfl | hx2
          · exact Or.inl (Or.inr hxk.symm)
          · exact Or.inr ⟨x, hx2, hxk⟩
  simpa using hgen entries []

/-- Characterization of the reduce: starting from an accumulator that has a
count, the result is the last element of the combined `acc :: keys` sequence
attaining the maximal count — earlier elements have counts `≤` the result's,
later elements strictly smaller. -/
theorem reduce_last_max (counts : List (String × Nat)) (keys : List String) :
    ∀ (acc : String) (cntAcc : Nat),
      countOf counts acc = some cntAcc →
      (∀ k ∈ keys, ∃ c, countOf counts k = some c) →
      ∃ pre post cnt,
        acc :: keys = pre ++
          (keys.foldl (fun a b =>
            if jsGt (countOf counts a) (countOf counts b) then a else b) acc) :: post ∧
        countOf counts (keys.foldl (fun a b =>
            if jsGt (countOf counts a) (countOf counts b) then a else b) acc) = some cnt ∧
        (∀ k ∈ pre, ∀ c, countOf counts k = some c → c ≤ cnt) ∧
        (∀ k ∈ post, ∀ c, countOf counts k = some c → c < cnt) := by
  induction keys with
  | nil =>
    intro acc cntAcc hacc _
    exact ⟨[], [], cntAcc, rfl, hacc, by simp, by simp⟩
  | cons k keys ih =>
    intro acc cntAcc hacc hkeys
    obtain ⟨ck, hck⟩ := hkeys k (List.mem_cons_self k keys)
    have hkeys2 : ∀ x ∈ keys, ∃ c, countOf counts x = some c :=
      fun x hx => hkeys x (List.mem_cons_of_mem k hx)
    rw [List.foldl_cons]
    by_cases hgt : ck < cntAcc
    · have hf : (if jsGt (countOf counts acc) (countOf counts k) then acc else k) = acc := by
        rw [hacc, hck]
        simp [jsGt, hgt]
      rw [hf]
      obtain ⟨pre, post, cnt, hsplit, hcnt, hpre, hpost⟩ := ih acc cntAcc hacc hkeys2
      have hcntAcc : cntAcc ≤ cnt := by
        have haccmem : acc ∈ pre ∨ acc =
            (keys.foldl (fun a b =>
              if jsGt (countOf counts a) (countOf counts b) then a else b) acc) ∨
            acc ∈ post := by
          have : acc ∈ acc :: keys := List.mem_cons_self acc keys
          rw [hsplit] at this
          rcases List.mem_append.mp this with h1 | h2
          · exact Or.inl h1
          · rcases List.mem_cons.mp h2 with h3 | h4
            · exact Or.inr (Or.inl h3)
            · exact Or.inr (Or.inr h4)
        rcases haccmem with h1 | h2 | h3
        · exact hpre acc h1 cntAcc hacc
        · have h5 : countOf counts acc = some cnt := by
            rw [h2]
            exact hcnt
          exact le_of_eq (Option.some_injective _ (hacc.symm.trans h5))
        · exact le_of_lt (hpost acc h3 cntAcc hacc)
      cases pre with
      | nil =>
        have hthis := hsplit
        simp only [List.nil_append, List.cons.injEq] at hthis
        obtain ⟨hr1, hr2⟩ := hthis
        refine ⟨[], k :: post, cnt, ?_, hcnt, by simp, ?_⟩
        · simp only [List.nil_append]
          rw [← hr1, ← hr2]
        · intro x hx c hc
          rcases List.mem_cons.mp hx with rfl | hx2
          · have hcc : c = ck := Option.some_injective _ (hc.symm.trans hck)
            have h5 : countOf counts acc = some cnt := by
              rw [hr1]
              exact hcnt
            have hcnteq : cntAcc = cnt :=
              Option.some_injective _ (hacc.symm.trans h5)
            omega
          · exact hpost x hx2 c hc
      | cons a pre2 =>
        have hthis := hsplit
        simp only [List.cons_append, List.cons.injEq] at hthis
        obtain ⟨rfl, hk2⟩ := hthis
        refine ⟨acc :: k :: pre2, post, cnt, ?_, hcnt, ?_, hpost⟩
        · simp only [List.cons_append]
          rw [← hk2]
        · intro x hx c hc
          rcases List.mem_cons.mp hx with rfl | hx2
          · exact hpre x (List.mem_cons_self x pre2) c hc
          · rcases List.mem_cons.mp hx2 with rfl | hx3
            · have hcc : c = ck := Option.some_injective _ (hc.symm.trans hck)
              omega
            · exact hpre x (List.mem_cons_of_mem acc hx3) c hc
    · have hf : (if jsGt (countOf counts acc) (countOf counts k) then acc else k) = k := by
        rw [hacc, hck]
        simp [jsGt, hgt]
      rw [hf]
      obtain ⟨pre, post, cnt, hsplit, hcnt, hpre, hpost⟩ := ih k ck hck hkeys2
      have hckcnt : ck ≤ cnt := by
        have hkmem : k ∈ k :: keys := List.mem_cons_self k keys
        rw [hsplit] at hkmem
        rcases List.mem_append.mp hkmem with h1 | h2
        · exact hpre k h1 ck hck
        · rcases List.mem_cons.mp h2 with h3 | h4
          · have h5 : countOf counts k = some cnt := by
              rw [h3]
              exact hcnt
            exact le_of_eq (Option.some_injective _ (hck.symm.trans h5))
          · exact le_of_lt (hpost k h4 ck hck)
      refine ⟨acc :: pre, post, cnt, ?_, hcnt, ?_, hpost⟩
      · simp only [List.cons_append, List.cons.injEq, true_and]
        exact hsplit
      · intro x hx c hc
        rcases List.mem_cons.mp hx with rfl | hx2
        · have : c = cntAcc := Option.some_injective _ (hacc ▸ hc.symm)
          omega
        · exact hpre x hx2 c hc

/-- Counterexample to C1 as stated: one Amazing entry stored first and one
Good entry stored second tie at count 1; the first key encountered — both in
the counts map's insertion order and in the Amazing-first enumeration order —
is `"Amazing"`, yet the computation returns `"Good"`: the tie goes to the
last key encountered, not the first. -/
theorem mostCommonMood_tie_returns_last :
    (moodCounts [tieAmazing, tieGood]).map Prod.fst = ["Amazing", "Good"] ∧
    countOf (moodCounts [tieAmazing, tieGood]) "Amazing" =
      countOf (moodCounts [tieAmazing, tieGood]) "Good" ∧
    mostCommonMood [tieAmazing, tieGood] = "Good" := by
  decide

/-- C1 (amended): for the empty list the sentinel `'-'` is reported; for a
non-empty list (with moods drawn from the five-value enumeration, the
data-model invariant) the computation returns a key of the counts map whose
count is maximal, and among tied keys it is the LAST one in the counts map's
insertion order — keys before it count `≤` it, keys after it count strictly
less. -/
theorem mostCommonDisplay_max_last (entries : List Entry)
    (hmoods : ∀ e ∈ entries, e.mood ∈ moodNames) :
    (entries = [] → mostCommonDisplay entries = "-") ∧
    (entries ≠ [] →
      mostCommonDisplay entries = mostCommonMood entries ∧
      ∃ pre post cnt,
        (moodCounts entries).map Prod.fst =
          pre ++ mostCommonMood entries :: post ∧
        countOf (moodCounts entries) (mostCommonMood entries) = some cnt ∧
        (∀ k ∈ pre, ∀ c, countOf (moodCounts entries) k = some c → c ≤ cnt) ∧
        (∀ k ∈ post, ∀ c, countOf (moodCounts entries) k = some c → c < cnt)) := by
  constructor
  · rintro rfl
    rfl
  · intro hne
    have hdisp : mostCommonDisplay entries = mostCommonMood entries := by
      have : entries.length ≠ 0 := fun h0 => hne (List.length_eq_zero.mp h0)
      simp [mostCommonDisplay, this]
    refine ⟨hdisp, ?_⟩
    have hdash : countOf (moodCounts entries) "-" = none := by
      rw [countOf_eq_none_iff]
      intro hmem
      rcases (moodCounts_keys_mem entries "-").mp hmem with ⟨e, he, hmood⟩
      have := hmoods e he
      rw [hmood] at this
      exact absurd this (by decide)
    obtain ⟨e0, he0⟩ : ∃ e0, e0 ∈ entries := by
      cases entries with
      | nil => exact absurd rfl hne
      | cons a l => exact ⟨a, List.mem_cons_self a l⟩
    have hkeysne : (moodCounts entries).map Prod.fst ≠ [] := by
      intro hempty
      have : e0.mood ∈ (moodCounts entries).map Prod.fst :=
        (moodCounts_keys_mem entries e0.mood).mpr ⟨e0, he0, rfl⟩
      rw [hempty] at this
      exact absurd this (List.not_mem_nil _)
    cases hkeys : (moodCounts entries).map Prod.fst with
    | nil => exact absurd hkeys hkeysne
    | cons k1 rest =>
      have hall : ∀ k ∈ k1 :: rest, ∃ c, countOf (moodCounts entries) k = some c := by
        intro k hk
        exact countOf_mem_some (moodCounts entries) k (hkeys ▸ hk)
      obtain ⟨c1, hc1⟩ := hall k1 (List.mem_cons_self k1 rest)
      have hrest : ∀ k ∈ rest, ∃ c, countOf (moodCounts entries) k = some c :=
        fun k hk => hall k (List.mem_cons_of_mem k1 hk)
      have hmcm : mostCommonMood entries =
          rest.foldl (fun a b =>
            if jsGt (countOf (moodCounts entries) a) (countOf (moodCounts entries) b)
            then a else b) k1 := by
        rw [mostCommonMood, hkeys, List.foldl_cons, hdash, jsGt_none, if_neg (by simp)]
      obtain ⟨pre, post, cnt, hsplit, hcnt, hpre, hpost⟩ :=
        reduce_last_max (moodCounts entries) rest k1 c1 hc1 hrest
      refine ⟨pre, post, cnt, ?_, ?_, hpre, hpost⟩
      · rw [hmcm]
        exact hsplit
      · rw [hmcm]
        exact hcnt

/-- Witness for C1 (amended) on a non-empty two-entry list. -/
theorem mostCommonDisplay_max_last_witness :
    (∀ e ∈ [sampleGood, sampleNeutral], e.mood ∈ moodNames) ∧
    ([sampleGood, sampleNeutral] ≠ ([] : List Entry)) ∧
    (mostCommonDisplay [sampleGood, sampleNeutral] =
        mostCommonMood [sampleGood, sampleNeutral] ∧
      ∃ pre post cnt,
        (moodCounts [sampleGood, sampleNeutral]).map Prod.fst =
          pre ++ mostCommonMood [sampleGood, sampleNeutral] :: post ∧
        countOf (moodCounts [sampleGood, sampleNeutral])
            (mostCommonMood [sampleGood, sampleNeutral]) = some cnt ∧
        (∀ k ∈ pre, ∀ c,
          countOf (moodCounts [sampleGood, sampleNeutral]) k = some c → c ≤ cnt) ∧
        (∀ k ∈ post, ∀ c,
          countOf (moodCounts [sampleGood, sampleNeutral]) k = some c → c < cnt)) :=
  ⟨by decide, by decide,
    (mostCommonDisplay_max_last [sampleGood, sampleNeutral] (by decide)).2 (by decide)⟩

/-! ### Tags buffer (`addTag` / `removeTag`) -/

/-- `addTag`: canonicalize the input with `trim().toLowerCase()`; push it only
when the result is non-empty (truthy), not already selected, and fewer than
five tags are selected. -/
def addTag (selectedTags : List String) (tagName : String) : List String :=
  let trimmedTag := jsToLowerCase (jsTrim tagName)
  if trimmedTag ≠ "" ∧ trimmedTag ∉ selectedTags ∧ selectedTags.length < 5 then
    selectedTags ++ [trimmedTag]
  else selectedTags

/-- `removeTag`: keep the tags different from the given one. -/
def removeTag (selectedTags : List String) (tagName : String) : List String :=
  selectedTags.filter (fun tag => tag ≠ tagName)

theorem char_toNat_ofNat {n : Nat} (h : n.isValidChar) : (Char.ofNat n).toNat = n := by
  unfold Char.ofNat
  rw [dif_pos h]
  rfl

theorem toLower_toNat_of_upper {c : Char} (h1 : 65 ≤ c.toNat) (h2 : c.toNat ≤ 90) :
    (Char.toLower c).toNat = c.toNat + 32 := by
  have hvalid : (c.toNat + 32).isValidChar := Or.inl (by omega)
  unfold Char.toLower
  rw [if_pos ⟨h1, h2⟩]
  exact char_toNat_ofNat hvalid

theorem toLower_eq_self {c : Char} (h : ¬(65 ≤ c.toNat ∧ c.toNat ≤ 90)) :
    Char.toLower c = c := by
  unfold Char.toLower
  rw [if_neg h]

theorem toLower_idem (c : Char) :
    Char.toLower (Char.toLower c) = Char.toLower c := by
  by_cases h : 65 ≤ c.toNat ∧ c.toNat ≤ 90
  · have h1 := toLower_toNat_of_upper h.1 h.2
    apply toLower_eq_self
    rw [h1]
    omega
  · rw [toLower_eq_self h, toLower_eq_self h]

theorem char_isWhitespace_false {d : Char} (h1 : 33 ≤ d.toNat) :
    d.isWhitespace = false := by
  have h2 : d ≠ ' ' := fun he => by
    have hx : d.toNat = 32 := by
      rw [he]
      decide
    omega
  have h3 : d ≠ '\t' := fun he => by
    have hx : d.toNat = 9 := by
      rw [he]
      decide
    omega
  have h4 : d ≠ '\r' := fun he => by
    have hx : d.toNat = 13 := by
      rw [he]
      decide
    omega
  have h5 : d ≠ '\n' := fun he => by
    have hx : d.toNat = 10 := by
      rw [he]
      decide
    omega
  unfold Char.isWhitespace
  simp [h2, h3, h4, h5]

theorem isWhitespace_toLower (c : Char) :
    (Char.toLower c).isWhitespace = c.isWhitespace := by
  by_cases h : 65 ≤ c.toNat ∧ c.toNat ≤ 90
  · have h1 := toLower_toNat_of_upper h.1 h.2
    rw [char_isWhitespace_false (d := Char.toLower c) (by omega),
      char_isWhitespace_false (d := c) (by omega)]
  · rw [toLower_eq_self h]

theorem head?_dropWhile_false {α : Type} (p : α → Bool) (l : List α) (a : α)
    (ha : (l.dropWhile p).head? = some a) : p a = false := by
  have h := List.head?_dropWhile_not p l
  rw [ha] at h
  exact h

theorem dropWhile_eq_self_of_head? {α : Type} (p : α → Bool) (l : List α)
    (h : ∀ a, l.head? = some a → p a = false) : l.dropWhile p = l := by
  cases l with
  | nil => rfl
  | cons x xs =>
    rw [List.dropWhile_cons, h x rfl]
    simp

theorem map_toLower_trimChars (l : List Char) :
    trimChars (l.map Char.toLower) = (trimChars l).map Char.toLower := by
  have hp : (Char.isWhitespace ∘ Char.toLower) = Char.isWhitespace :=
    funext isWhitespace_toLower
  simp only [trimChars, List.dropWhile_map, hp, ← List.map_reverse]

theorem trimChars_idem (l : List Char) : trimChars (trimChars l) = trimChars l := by
  set t := trimChars l with ht
  have htrev : t.reverse =
      (l.dropWhile Char.isWhitespace).reverse.dropWhile Char.isWhitespace := by
    rw [ht]
    exact List.reverse_reverse _
  have h2 : t.reverse.dropWhile Char.isWhitespace = t.reverse := by
    apply dropWhile_eq_self_of_head?
    intro a ha
    rw [htrev] at ha
    exact head?_dropWhile_false _ _ _ ha
  have hprefix : t <+: l.dropWhile Char.isWhitespace := by
    rw [← List.reverse_suffix, htrev]
    exact List.dropWhile_suffix _
  have h1 : t.dropWhile Char.isWhitespace = t := by
    apply dropWhile_eq_self_of_head?
    intro a ha
    obtain ⟨r, hr⟩ := hprefix
    cases htt : t with
    | nil =>
      rw [htt] at ha
      cases ha
    | cons x xs =>
      rw [htt] at ha hr
      have hxa : x = a := by simpa using ha
      have hh : (l.dropWhile Char.isWhitespace).head? = some x := by
        rw [← hr]
        rfl
      rw [hxa] at hh
      exact head?_dropWhile_false _ _ _ hh
  show trimChars t = t
  unfold trimChars
  rw [h1, h2, List.reverse_reverse]

theorem jsTrim_jsToLowerCase_comm (s : String) :
    jsTrim (jsToLowerCase s) = jsToLowerCase (jsTrim s) := by
  unfold jsTrim jsToLowerCase
  exact congrArg String.mk (map_toLower_trimChars s.data)

theorem jsToLowerCase_idem (s : String) :
    jsToLowerCase (jsToLowerCase s) = jsToLowerCase s := by
  unfold jsToLowerCase
  refine congrArg String.mk ?_
  rw [List.map_map]
  exact List.map_congr_left (fun c _ => toLower_idem c)

theorem jsTrim_idem (s : String) : jsTrim (jsTrim s) = jsTrim s := by
  unfold jsTrim
  exact congrArg String.mk (trimChars_idem s.data)

theorem canon_trim_fixed (raw : String) :
    jsTrim (jsToLowerCase (jsTrim raw)) = jsToLowerCase (jsTrim raw) := by
  rw [jsTrim_jsToLowerCase_comm, jsTrim_idem]

theorem canon_lower_fixed (raw : String) :
    jsToLowerCase (jsToLowerCase (jsTrim raw)) = jsToLowerCase (jsTrim raw) :=
  jsToLowerCase_idem _

/-- The documented invariant of the selected-tags buffer: at most five tags,
deduplicated, each non-empty and fixed under trimming and case folding. -/
def TagsInv (l : List String) : Prop :=
  l.length ≤ 5 ∧ l.Nodup ∧
    ∀ t ∈ l, t ≠ "" ∧ jsTrim t = t ∧ jsToLowerCase t = t

/-- C9: `addTag` and `removeTag` preserve the buffer invariant; adding a tag
already selected (after canonicalization) is a no-op, adding a whitespace-only
tag is a no-op, adding to a full buffer of five is a no-op, and adding six
distinct tags to an empty buffer retains only the first five. -/
theorem tags_buffer_invariant (l : List String) (raw other : String)
    (hinv : TagsInv l) :
    TagsInv (addTag l raw) ∧
    TagsInv (removeTag l other) ∧
    (jsToLowerCase (jsTrim raw) ∈ l → addTag l raw = l) ∧
    (jsTrim raw = "" → addTag l raw = l) ∧
    (l.length = 5 → addTag l raw = l) ∧
    List.foldl addTag [] ["a", "b", "c", "d", "e", "f"] = ["a", "b", "c", "d", "e"] := by
  obtain ⟨hlen, hnd, helem⟩ := hinv
  have haddEq : addTag l raw =
      if jsToLowerCase (jsTrim raw) ≠ "" ∧ jsToLowerCase (jsTrim raw) ∉ l ∧
          l.length < 5 then
        l ++ [jsToLowerCase (jsTrim raw)]
      else l := rfl
  refine ⟨?_, ?_, ?_, ?_, ?_, by decide⟩
  · rw [haddEq]
    by_cases h : jsToLowerCase (jsTrim raw) ≠ "" ∧ jsToLowerCase (jsTrim raw) ∉ l ∧
        l.length < 5
    · rw [if_pos h]
      obtain ⟨hne, hnotmem, hlt⟩ := h
      refine ⟨?_, ?_, ?_⟩
      · rw [List.length_append, List.length_singleton]
        omega
      · rw [List.nodup_append]
        refine ⟨hnd, List.nodup_singleton _, ?_⟩
        intro x hx hx2
        have : x = jsToLowerCase (jsTrim raw) := by simpa using hx2
        subst this
        exact hnotmem hx
      · intro t ht
        rcases List.mem_append.mp ht with h1 | h2
        · exact helem t h1
        · have : t = jsToLowerCase (jsTrim raw) := by simpa using h2
          subst this
          exact ⟨hne, canon_trim_fixed raw, canon_lower_fixed raw⟩
    · rw [if_neg h]
      exact ⟨hlen, hnd, helem⟩
  · refine ⟨le_trans (List.length_filter_le _ _) hlen, hnd.filter _, ?_⟩
    intro t ht
    exact helem t (List.mem_of_mem_filter ht)
  · intro hmem
    rw [haddEq, if_neg]
    intro hcond
    exact hcond.2.1 hmem
  · intro htrim
    rw [haddEq, if_neg]
    intro hcond
    apply hcond.1
    rw [htrim]
    rfl
  · intro hfive
    rw [haddEq, if_neg]
    intro hcond
    omega

/-- Witness for C9 starting from the empty buffer. -/
theorem tags_buffer_invariant_witness :
    TagsInv [] ∧
    (TagsInv (addTag [] " Park ") ∧
      TagsInv (removeTag [] "walk") ∧
      (jsToLowerCase (jsTrim " Park ") ∈ ([] : List String) →
        addTag [] " Park " = []) ∧
      (jsTrim " Park " = "" → addTag [] " Park " = []) ∧
      (List.length ([] : List String) = 5 → addTag [] " Park " = []) ∧
      List.foldl addTag [] ["a", "b", "c", "d", "e", "f"] =
        ["a", "b", "c", "d", "e"]) :=
  ⟨⟨by decide, List.nodup_nil, by simp⟩,
    tags_buffer_invariant [] " Park " "walk" ⟨by decide, List.nodup_nil, by simp⟩⟩

/-! ### Search stage under dynamic typing (`renderHistory` on imported data) -/

/-- An entry as JS actually sees it after `loadData`/`importData`, where the
`mood`, `note` and `tags` fields may be absent (`undefined`): neither loader
validates them (only `loadData` defaults `tags`, and imported entries get no
defaulting at all). -/
structure EntryDyn where
  id : Int
  mood : Option String
  note : Option String
  tags : Option (List String)
  timestamp : Int
deriving DecidableEq

/-- The search callback of `renderHistory` under JS dynamic typing, in
evaluation order: `entry.note.toLowerCase()` throws a TypeError on a missing
note; otherwise, on a miss, `entry.mood.toLowerCase()` throws on a missing
mood; otherwise the guard `entry.tags && entry.tags.some(...)` turns a
missing tags field into a plain `false`. -/
def searchPredDyn (searchTerm : String) (e : EntryDyn) : Except Unit Bool :=
  match e.note with
  | none => Except.error ()
  | some note =>
    if jsIncludes (jsToLowerCase note) searchTerm then Except.ok true
    else
      match e.mood with
      | none => Except.error ()
      | some mood =>
        if jsIncludes (jsToLowerCase mood) searchTerm then Except.ok true
        else
          match e.tags with
          | none => Except.ok false
          | some tags => Except.ok (tags.any (fun tag => jsIncludes tag searchTerm))

/-- `Array.prototype.filter` with a callback that can throw: elements are
visited left to right and the first exception aborts the whole call. -/
def filterThrow {α : Type} (p : α → Except Unit Bool) : List α → Except Unit (List α)
  | [] => Except.ok []
  | a :: as => do
    let keep ← p a
    let rest ← filterThrow p as
    pure (if keep then a :: rest else rest)

/-- The search stage of `renderHistory` on dynamically-typed entries: a no-op
when the search box is empty after trimming, otherwise the throwing filter
with the trimmed, case-folded term. -/
def searchStageDyn (entries : List EntryDyn) (searchInput : String) :
    Except Unit (List EntryDyn) :=
  if jsTrim searchInput ≠ "" then
    filterThrow (searchPredDyn (jsToLowerCase (jsTrim searchInput))) entries
  else Except.ok entries

/-- Fixture: note present, mood missing. -/
def dynMissingMood : EntryDyn := ⟨1, none, some "hello", some [], 0⟩

/-- Fixture: note and mood present, tags missing (guarded). -/
def dynOk : EntryDyn := ⟨2, some "Good", some "note", none, 0⟩

/-- Fixture: mood present, note missing. -/
def dynNoNote : EntryDyn := ⟨3, some "Good", none, some [], 0⟩

/-- Counterexample to C10 as stated: a list whose every note IS a string (the
claim's stated precondition) but whose single entry lacks a mood still
reaches the error path on a non-empty search term, because
`entry.mood.toLowerCase()` is exactly as unguarded as the note access. -/
theorem searchStage_note_precondition_insufficient :
    (∀ e ∈ [dynMissingMood], e.note.isSome = true) ∧
    searchStageDyn [dynMissingMood] "zzz" = Except.error () := by
  constructor
  · intro e he
    have he2 : e = dynMissingMood := by simpa using he
    subst he2
    rfl
  · rfl

theorem searchPredDyn_ok (t : String) (e : EntryDyn)
    (hn : e.note.isSome = true) (hm : e.mood.isSome = true) :
    ∃ b, searchPredDyn t e = Except.ok b := by
  obtain ⟨i, moodOpt, noteOpt, tagsOpt, ts⟩ := e
  cases noteOpt with
  | none => cases hn
  | some note =>
    cases moodOpt with
    | none => cases hm
    | some mood =>
      by_cases h1 : jsIncludes (jsToLowerCase note) t = true
      · exact ⟨true, by simp [searchPredDyn, h1]⟩
      · by_cases h2 : jsIncludes (jsToLowerCase mood) t = true
        · exact ⟨true, by simp [searchPredDyn, h1, h2]⟩
        · cases tagsOpt with
          | none => exact ⟨false, by simp [searchPredDyn, h1, h2]⟩
          | some tags =>
            exact ⟨tags.any (fun tag => jsIncludes tag t),
              by simp [searchPredDyn, h1, h2]⟩

theorem filterThrow_ok {α : Type} (p : α → Except Unit Bool) (l : List α)
    (h : ∀ a ∈ l, ∃ b, p a = Except.ok b) :
    ∃ res, filterThrow p l = Except.ok res := by
  induction l with
  | nil => exact ⟨[], rfl⟩
  | cons a as ih =>
    obtain ⟨b, hb⟩ := h a (List.mem_cons_self a as)
    obtain ⟨res, hres⟩ := ih (fun x hx => h x (List.mem_cons_of_mem a hx))
    refine ⟨if b then a :: res else res, ?_⟩
    unfold filterThrow
    rw [hb, hres]
    rfl

theorem filterThrow_error_of_missing_note (t : String) (l : List EntryDyn)
    (h : ∃ e ∈ l, e.note = none) :
    filterThrow (searchPredDyn t) l = Except.error () := by
  induction l with
  | nil =>
    rcases h with ⟨e, he, _⟩
    cases he
  | cons a as ih =>
    cases ha : a.note with
    | none =>
      have hpa : searchPredDyn t a = Except.error () := by
        unfold searchPredDyn
        rw [ha]
      unfold filterThrow
      rw [hpa]
      rfl
    | some note =>
      rcases h with ⟨e, he, hnote⟩
      rcases List.mem_cons.mp he with rfl | he2
      · rw [ha] at hnote
        cases hnote
      · have hrest := ih ⟨e, he2, hnote⟩
        unfold filterThrow
        cases hb : searchPredDyn t a with
        | error u =>
          cases u
          rfl
        | ok b =>
          rw [hrest]
          rfl

/-- C10 (amended): when every entry's note AND mood fields are strings, the
search-filter stage is total (never throws) for every search term — note and
mood are case-folded unconditionally while a missing tags field is guarded —
and whenever some entry lacks a note, any search term that is non-empty after
trimming drives the stage into the error (TypeError) path. -/
theorem searchStage_totality (entries : List EntryDyn) (term : String) :
    ((∀ e ∈ entries, e.note.isSome = true ∧ e.mood.isSome = true) →
      ∃ l, searchStageDyn entries term = Except.ok l) ∧
    ((∃ e ∈ entries, e.note = none) → jsTrim term ≠ "" →
      searchStageDyn entries term = Except.error ()) := by
  constructor
  · intro h
    unfold searchStageDyn
    by_cases ht : jsTrim term ≠ ""
    · rw [if_pos ht]
      exact filterThrow_ok _ entries
        (fun a ha => searchPredDyn_ok _ a (h a ha).1 (h a ha).2)
    · rw [if_neg ht]
      exact ⟨entries, rfl⟩
  · intro hex ht
    unfold searchStageDyn
    rw [if_pos ht]
    exact filterThrow_error_of_missing_note _ entries hex

/-- Witness for C10 (amended): both halves applied to concrete one-entry
stores and the term `"q"`. -/
theorem searchStage_totality_witness :
    ((∀ e ∈ [dynOk], e.note.isSome = true ∧ e.mood.isSome = true) ∧
      ∃ l, searchStageDyn [dynOk] "q" = Except.ok l) ∧
    ((∃ e ∈ [dynNoNote], e.note = none) ∧ jsTrim "q" ≠ "" ∧
      searchStageDyn [dynNoNote] "q" = Except.error ()) :=
  ⟨⟨by decide, (searchStage_totality [dynOk] "q").1 (by decide)⟩,
    ⟨⟨dynNoNote, by decide, rfl⟩, by decide,
      (searchStage_totality [dynNoNote] "q").2 ⟨dynNoNote, by decide, rfl⟩ (by decide)⟩⟩

end MoodTracker
